import Mathlib

/-!
Verification of the multi-determinant Slater wavefunction engine
(`pyqmc/jax/slater.py`).

The numerical code is embedded shallowly: JAX arrays of floats become
functions out of `Fin` types into `ℝ`, and the `(sign, logabsdet)` pairs
produced by `jnp.linalg.slogdet` are modelled with the sign in `ℝ` and the
log-magnitude in `EReal`, so that the IEEE value `-inf` returned for a
singular matrix is represented by `⊥`.  All arithmetic is exact real
arithmetic.
-/

open scoped BigOperators

noncomputable section

instance finNonemptyOfNeZero {n : ℕ} [NeZero n] : Nonempty (Fin n) :=
  ⟨⟨0, Nat.pos_of_ne_zero (NeZero.ne n)⟩⟩

/-- State of the determinants of one spin channel, as evaluated at one
configuration: the molecular-orbital value matrix, and per determinant the
sign, log-magnitude and inverse of the occupied-orbital submatrix.
Mirrors the `SlaterState` named tuple of `slater.py`. -/
structure SlaterState (n ndet norb : ℕ) where
  mo_values : Matrix (Fin n) (Fin norb) ℝ
  sign : Fin ndet → ℝ
  logabsdet : Fin ndet → EReal
  inverse : Fin ndet → Matrix (Fin n) (Fin n) ℝ

/-- CI coefficients together with the two per-spin orbital coefficient
matrices.  Mirrors `DeterminantParameters` of `slater.py`. -/
structure DeterminantParameters (nci norb nbasis : ℕ) where
  ci_coeff : Fin nci → ℝ
  mo_coeff_alpha : Matrix (Fin nbasis) (Fin norb) ℝ
  mo_coeff_beta : Matrix (Fin nbasis) (Fin norb) ℝ

/-- The combinatorial data of the CI expansion: for each CI term the index
of the up determinant and of the down determinant it uses, and for each
per-spin determinant its occupied orbital indices.
Mirrors `DeterminantExpansion` of `slater.py`. -/
structure DeterminantExpansion (nci ndu ndd nup ndown norb : ℕ) where
  mapping_up : Fin nci → Fin ndu
  mapping_down : Fin nci → Fin ndd
  determinants_up : Fin ndu → Fin nup → Fin norb
  determinants_down : Fin ndd → Fin ndown → Fin norb

/-- `jnp.take(mos, det, axis=1)`: the submatrix of `mos` whose `j`-th column
is the `det j`-th column of `mos`. -/
def takeCols {n norb k : ℕ} (mos : Matrix (Fin n) (Fin norb) ℝ)
    (det : Fin k → Fin norb) : Matrix (Fin n) (Fin k) ℝ :=
  Matrix.of fun i j => mos i (det j)

/-- IEEE-style `log(abs(x))`, with `log 0 = -inf` modelled as `⊥`. -/
def elog (x : ℝ) : EReal := if x = 0 then ⊥ else ((Real.log |x| : ℝ) : EReal)

/-- Real exponential extended to the extended log domain: `exp (-inf) = 0`.
The value at `⊤` never arises from log-magnitudes and is set arbitrarily. -/
def expE (x : EReal) : ℝ := if x = ⊥ then 0 else if x = ⊤ then 0 else Real.exp x.toReal

/-- Sign component of `jnp.linalg.slogdet` over the reals: `-1`, `0` or `1`. -/
def slogdetSign {n : ℕ} (M : Matrix (Fin n) (Fin n) ℝ) : ℝ := Real.sign M.det

/-- Log-magnitude component of `jnp.linalg.slogdet` over the reals:
`log |det M|`, and `⊥` (IEEE `-inf`) when `M` is singular. -/
def slogdetLogabs {n : ℕ} (M : Matrix (Fin n) (Fin n) ℝ) : EReal := elog M.det

/-- `_compute_one_determinant(mos, det)`: slogdet of the occupied-orbital
submatrix selected by `det`. -/
def compute_one_determinant {n norb : ℕ} (mos : Matrix (Fin n) (Fin norb) ℝ)
    (det : Fin n → Fin norb) : ℝ × EReal :=
  (slogdetSign (takeCols mos det), slogdetLogabs (takeCols mos det))

/-- `_compute_inverse(mos, det)`: inverse of the occupied-orbital submatrix. -/
def compute_inverse {n norb : ℕ} (mos : Matrix (Fin n) (Fin norb) ℝ)
    (det : Fin n → Fin norb) : Matrix (Fin n) (Fin n) ℝ :=
  (takeCols mos det)⁻¹

/-- `compute_determinants(mo_coeff, gto_evaluator, determinants, xyz)`:
evaluate the atomic orbitals at `xyz`, form the molecular orbitals, and for
every determinant of the list record slogdet and the inverse of its
occupied-orbital submatrix.  The electron-coordinate argument type is
abstract, exactly as the evaluator is an opaque argument in the source. -/
def compute_determinants {α : Type} {n ndet norb nbasis : ℕ}
    (mo_coeff : Matrix (Fin nbasis) (Fin norb) ℝ)
    (gto_evaluator : α → Matrix (Fin n) (Fin nbasis) ℝ)
    (determinants : Fin ndet → Fin n → Fin norb)
    (xyz : α) : SlaterState n ndet norb :=
  let aos := gto_evaluator xyz
  let mos := aos * mo_coeff
  { mo_values := mos
    sign := fun d => (compute_one_determinant mos (determinants d)).1
    logabsdet := fun d => (compute_one_determinant mos (determinants d)).2
    inverse := fun d => compute_inverse mos (determinants d) }

/-- An electron position, three real coordinates. -/
abbrev Pos : Type := Fin 3 → ℝ

/-- `evaluate_expansion(gto_evaluator, expansion, nelec, det_params, xyz)`:
full recompute for one configuration.  The up and down determinant batches
are computed on the two blocks of `xyz`, the per-spin slogdets are combined
through the CI mapping by the log-sum-exp-with-sign pattern, and the result
is the combined `(sign, log-magnitude)` pair plus the two per-spin states.
The row-wise basis evaluator `gto_ne` is the per-electron map of the
single-electron evaluator `gto1`, as built in `create_wf_evaluator`. -/
def evaluate_expansion {nci ndu ndd nup ndown norb nbasis : ℕ} [NeZero nci]
    (gto1 : Pos → Fin nbasis → ℝ)
    (expansion : DeterminantExpansion nci ndu ndd nup ndown norb)
    (det_params : DeterminantParameters nci norb nbasis)
    (xyz : Fin (nup + ndown) → Pos) :
    ℝ × EReal × SlaterState nup ndu norb × SlaterState ndown ndd norb :=
  let dets_up := compute_determinants det_params.mo_coeff_alpha
      (fun xs => Matrix.of fun i b => gto1 (xs i) b)
      expansion.determinants_up (fun i => xyz (Fin.castAdd ndown i))
  let dets_down := compute_determinants det_params.mo_coeff_beta
      (fun xs => Matrix.of fun j b => gto1 (xs j) b)
      expansion.determinants_down (fun j => xyz (Fin.natAdd nup j))
  let logdets : Fin nci → EReal := fun i =>
    dets_up.logabsdet (expansion.mapping_up i) +
      dets_down.logabsdet (expansion.mapping_down i)
  let signdets : Fin nci → ℝ := fun i =>
    dets_up.sign (expansion.mapping_up i) * dets_down.sign (expansion.mapping_down i)
  let ref : EReal := Finset.univ.sup' Finset.univ_nonempty logdets
  let values : ℝ := ∑ i, det_params.ci_coeff i * signdets i * expE (logdets i - ref)
  (Real.sign values, elog values + ref, dets_up, dets_down)

/-- `_determinant_lemma(mos, inverse, det, e)`: the one-row substitution
determinant ratio, the dot product of the new orbital row (restricted to the
determinant's occupied columns) with column `e` of the cached inverse. -/
def determinant_lemma {n norb : ℕ} (mos : Fin norb → ℝ)
    (inverse : Matrix (Fin n) (Fin n) ℝ) (det : Fin n → Fin norb) (e : Fin n) : ℝ :=
  ∑ k, mos (det k) * inverse k e

/-- `testvalue_up(gto_evaluator, expansion, det_params, dets_up, dets_down, e, xyz)`:
ratio of the combined wavefunction value with up electron `e` moved to `xyz`
to the combined value at the cached state, computed per determinant by the
determinant-ratio lemma and combined with the (unchanged) down-spin arrays
through the shared log-sum-exp-with-sign pattern.  Also returns the new
molecular orbital row, later consumed by the Sherman-Morrison update. -/
def testvalue_up {nci ndu ndd nup ndown norb nbasis : ℕ} [NeZero nci]
    (gto1 : Pos → Fin nbasis → ℝ)
    (expansion : DeterminantExpansion nci ndu ndd nup ndown norb)
    (det_params : DeterminantParameters nci norb nbasis)
    (dets_up : SlaterState nup ndu norb)
    (dets_down : SlaterState ndown ndd norb)
    (e : Fin nup) (xyz : Pos) : ℝ × (Fin norb → ℝ) :=
  let aos := gto1 xyz
  let mos : Fin norb → ℝ := fun o => ∑ b, aos b * det_params.mo_coeff_alpha b o
  let ratios : Fin ndu → ℝ := fun d =>
    determinant_lemma mos (dets_up.inverse d) (expansion.determinants_up d) e
  let newsigns : Fin ndu → ℝ := fun d => Real.sign (ratios d) * dets_up.sign d
  let newlogabs : Fin ndu → EReal := fun d => dets_up.logabsdet d + elog (ratios d)
  let logdets : Fin nci → EReal := fun i =>
    newlogabs (expansion.mapping_up i) + dets_down.logabsdet (expansion.mapping_down i)
  let signdets : Fin nci → ℝ := fun i =>
    newsigns (expansion.mapping_up i) * dets_down.sign (expansion.mapping_down i)
  let logdets_old : Fin nci → EReal := fun i =>
    dets_up.logabsdet (expansion.mapping_up i) +
      dets_down.logabsdet (expansion.mapping_down i)
  let signdets_old : Fin nci → ℝ := fun i =>
    dets_up.sign (expansion.mapping_up i) * dets_down.sign (expansion.mapping_down i)
  let ref : EReal := max (Finset.univ.sup' Finset.univ_nonempty logdets)
      (Finset.univ.sup' Finset.univ_nonempty logdets_old)
  let values : ℝ := ∑ i, det_params.ci_coeff i * signdets i * expE (logdets i - ref)
  let values_old : ℝ :=
    ∑ i, det_params.ci_coeff i * signdets_old i * expE (logdets_old i - ref)
  (values / values_old, mos)

/-- `testvalue_down`: the same single-electron ratio for a down-spin
electron, with the up-spin arrays left unchanged. -/
def testvalue_down {nci ndu ndd nup ndown norb nbasis : ℕ} [NeZero nci]
    (gto1 : Pos → Fin nbasis → ℝ)
    (expansion : DeterminantExpansion nci ndu ndd nup ndown norb)
    (det_params : DeterminantParameters nci norb nbasis)
    (dets_up : SlaterState nup ndu norb)
    (dets_down : SlaterState ndown ndd norb)
    (e : Fin ndown) (xyz : Pos) : ℝ × (Fin norb → ℝ) :=
  let aos := gto1 xyz
  let mos : Fin norb → ℝ := fun o => ∑ b, aos b * det_params.mo_coeff_beta b o
  let ratios : Fin ndd → ℝ := fun d =>
    determinant_lemma mos (dets_down.inverse d) (expansion.determinants_down d) e
  let newsigns : Fin ndd → ℝ := fun d => Real.sign (ratios d) * dets_down.sign d
  let newlogabs : Fin ndd → EReal := fun d => dets_down.logabsdet d + elog (ratios d)
  let logdets : Fin nci → EReal := fun i =>
    dets_up.logabsdet (expansion.mapping_up i) + newlogabs (expansion.mapping_down i)
  let signdets : Fin nci → ℝ := fun i =>
    dets_up.sign (expansion.mapping_up i) * newsigns (expansion.mapping_down i)
  let logdets_old : Fin nci → EReal := fun i =>
    dets_up.logabsdet (expansion.mapping_up i) +
      dets_down.logabsdet (expansion.mapping_down i)
  let signdets_old : Fin nci → ℝ := fun i =>
    dets_up.sign (expansion.mapping_up i) * dets_down.sign (expansion.mapping_down i)
  let ref : EReal := max (Finset.univ.sup' Finset.univ_nonempty logdets)
      (Finset.univ.sup' Finset.univ_nonempty logdets_old)
  let values : ℝ := ∑ i, det_params.ci_coeff i * signdets i * expE (logdets i - ref)
  let values_old : ℝ :=
    ∑ i, det_params.ci_coeff i * signdets_old i * expE (logdets_old i - ref)
  (values / values_old, mos)

/-- `_sherman_morrison_row(e, inverse, mos, determinant)`: the rank-1 update
of the cached inverse after electron `e`'s orbital row is replaced by the
row selected from `mos`.  Returns the determinant ratio and the new inverse:
old inverse minus the outer product of (old inverse's column `e` scaled by
`1/ratio`) and (new row times old inverse), with column `e` then overwritten
by the scaled column (`invnew.at[:,e].set(inv_ratio)` in the source). -/
def sherman_morrison_row {n norb : ℕ} (e : Fin n)
    (inverse : Matrix (Fin n) (Fin n) ℝ) (mos : Fin norb → ℝ)
    (determinant : Fin n → Fin norb) : ℝ × Matrix (Fin n) (Fin n) ℝ :=
  let vec : Fin n → ℝ := fun k => mos (determinant k)
  let tmp : Fin n → ℝ := fun j => ∑ k, vec k * inverse k j
  let ratio : ℝ := tmp e
  let inv_ratio : Fin n → ℝ := fun k => inverse k e / ratio
  let invnew : Matrix (Fin n) (Fin n) ℝ :=
    Matrix.of fun k j => inverse k j - inv_ratio k * tmp j
  let invnew2 : Matrix (Fin n) (Fin n) ℝ :=
    Matrix.of fun k j => if j = e then inv_ratio k else invnew k j
  (ratio, invnew2)

/-- Modelled from the spec's words (claim wording for §4.4): identical to
`sherman_morrison_row` except that after the outer-product subtraction it
overwrites electron `e`'s ROW of the inverse (rather than the column the
source code overwrites) with old inverse's column `e` scaled by `1/ratio`. -/
def sherman_morrison_row_described {n norb : ℕ} (e : Fin n)
    (inverse : Matrix (Fin n) (Fin n) ℝ) (mos : Fin norb → ℝ)
    (determinant : Fin n → Fin norb) : ℝ × Matrix (Fin n) (Fin n) ℝ :=
  let vec : Fin n → ℝ := fun k => mos (determinant k)
  let tmp : Fin n → ℝ := fun j => ∑ k, vec k * inverse k j
  let ratio : ℝ := tmp e
  let inv_ratio : Fin n → ℝ := fun k => inverse k e / ratio
  let invnew : Matrix (Fin n) (Fin n) ℝ :=
    Matrix.of fun k j => inverse k j - inv_ratio k * tmp j
  let invnew2 : Matrix (Fin n) (Fin n) ℝ :=
    Matrix.of fun k j => if k = e then inv_ratio j else invnew k j
  (ratio, invnew2)

/-- Modelled from the spec (§4.2 ExpansionCombiner, stated in the spec's own
words): per CI term the combined log-magnitude is the sum of the two mapped
per-spin log-magnitudes and the combined sign the product of the two mapped
signs; the maximum term log-magnitude is the reference; the coefficient
times sign times exponential of the shifted log-magnitude terms are summed;
the result is (sign of that sum, log of its absolute value plus reference). -/
def logsumexp_sign_spec {nci ndu ndd : ℕ} [NeZero nci]
    (ci : Fin nci → ℝ) (sign_up : Fin ndu → ℝ) (logabs_up : Fin ndu → EReal)
    (sign_down : Fin ndd → ℝ) (logabs_down : Fin ndd → EReal)
    (mapping_up : Fin nci → Fin ndu) (mapping_down : Fin nci → Fin ndd) :
    ℝ × EReal :=
  let combined_log : Fin nci → EReal := fun i =>
    logabs_up (mapping_up i) + logabs_down (mapping_down i)
  let combined_sign : Fin nci → ℝ := fun i =>
    sign_up (mapping_up i) * sign_down (mapping_down i)
  let ref : EReal := Finset.univ.sup' Finset.univ_nonempty combined_log
  let total : ℝ := ∑ i, ci i * combined_sign i * expE (combined_log i - ref)
  (Real.sign total, elog total + ref)

/-- The real number represented by a `(sign, log-magnitude)` pair. -/
def combined_value (sgn : ℝ) (labs : EReal) : ℝ := sgn * expE labs

/-- The mutable state of a `JAXSlater` wavefunction object: the static
expansion data, the single-electron basis evaluator, the parameters, and the
cached per-configuration combined results and per-spin states. -/
structure JAXSlater (nconfig nci ndu ndd nup ndown norb nbasis : ℕ) where
  gto1 : Pos → Fin nbasis → ℝ
  expansion : DeterminantExpansion nci ndu ndd nup ndown norb
  parameters : DeterminantParameters nci norb nbasis
  sign : Fin nconfig → ℝ
  logabs : Fin nconfig → EReal
  dets_up : Fin nconfig → SlaterState nup ndu norb
  dets_down : Fin nconfig → SlaterState ndown ndd norb

/-- `JAXSlater.recompute(configs)`: full batch evaluation; every
configuration's cached sign, log-magnitude and per-spin states are replaced
with a fresh `evaluate_expansion` at that configuration's coordinates. -/
def JAXSlater.recompute {nconfig nci ndu ndd nup ndown norb nbasis : ℕ} [NeZero nci]
    (wf : JAXSlater nconfig nci ndu ndd nup ndown norb nbasis)
    (configs : Fin nconfig → Fin (nup + ndown) → Pos) :
    JAXSlater nconfig nci ndu ndd nup ndown norb nbasis :=
  { wf with
    sign := fun c => (evaluate_expansion wf.gto1 wf.expansion wf.parameters (configs c)).1
    logabs := fun c => (evaluate_expansion wf.gto1 wf.expansion wf.parameters (configs c)).2.1
    dets_up := fun c => (evaluate_expansion wf.gto1 wf.expansion wf.parameters (configs c)).2.2.1
    dets_down := fun c =>
      (evaluate_expansion wf.gto1 wf.expansion wf.parameters (configs c)).2.2.2 }

/-- `JAXSlater.updateinternals(e, epos, configs, mask, saved_values)`: the
source body is `if True or saved_values is None: self.recompute(configs);
return`, so the call always performs a full recompute from `configs`; the
electron index, proposed position, accept mask and saved values are never
consulted (the incremental Sherman-Morrison branch below that line is dead
code). -/
def JAXSlater.updateinternals {nconfig nci ndu ndd nup ndown norb nbasis : ℕ} [NeZero nci]
    (wf : JAXSlater nconfig nci ndu ndd nup ndown norb nbasis)
    (e : Fin (nup + ndown)) (epos : Fin nconfig → Pos)
    (configs : Fin nconfig → Fin (nup + ndown) → Pos)
    (mask : Fin nconfig → Bool)
    (saved_values : Option (Fin nconfig → Fin norb → ℝ)) :
    JAXSlater nconfig nci ndu ndd nup ndown norb nbasis :=
  wf.recompute configs

/-- `JAXSlater.testvalue(e, epos)`: dispatch on the electron's spin, run the
corresponding single-electron ratio for every configuration, and return the
per-configuration ratios with the saved orbital rows.  The method reads the
cached state and parameters and assigns no field, so the object state is
returned unchanged. -/
def JAXSlater.testvalue {nconfig nci ndu ndd nup ndown norb nbasis : ℕ} [NeZero nci]
    (wf : JAXSlater nconfig nci ndu ndd nup ndown norb nbasis)
    (e : Fin (nup + ndown)) (epos : Fin nconfig → Pos) :
    ((Fin nconfig → ℝ) × (Fin nconfig → Fin norb → ℝ)) ×
      JAXSlater nconfig nci ndu ndd nup ndown norb nbasis :=
  let results : Fin nconfig → ℝ × (Fin norb → ℝ) := fun c =>
    if h : (e : ℕ) < nup then
      testvalue_up wf.gto1 wf.expansion wf.parameters (wf.dets_up c) (wf.dets_down c)
        ⟨(e : ℕ), h⟩ (epos c)
    else
      testvalue_down wf.gto1 wf.expansion wf.parameters (wf.dets_up c) (wf.dets_down c)
        ⟨(e : ℕ) - nup, by omega⟩ (epos c)
  ((fun c => (results c).1, fun c => (results c).2), wf)

/-- The three keys of the public parameter dictionary of `JAXSlater`. -/
inductive ParamKey : Type
  | det_coeff
  | mo_coeff_alpha
  | mo_coeff_beta
deriving DecidableEq

/-- The `_parameterMap` wrapper: the stored parameter dictionary (one
generic array value per key) and the derived jax-side parameter triple.
The array payload type is abstract. -/
structure ParameterMap (V : Type) where
  parameters : ParamKey → V
  jax_parameters : V × V × V

/-- `_parameterMap.__setitem__`: store the item under its key, then rebuild
the jax parameter triple from the three current dictionary entries. -/
def ParameterMap.setitem {V : Type} (m : ParameterMap V) (key : ParamKey) (item : V) :
    ParameterMap V :=
  let p := Function.update m.parameters key item
  { parameters := p
    jax_parameters := (p ParamKey.det_coeff, p ParamKey.mo_coeff_alpha, p ParamKey.mo_coeff_beta) }

/-- `_parameterMap.__delitem__`: raises `NotImplementedError` before any
mutation; the raise is modelled as an `Except.error` result, paired with the
(unchanged) map. -/
def ParameterMap.delitem {V : Type} (m : ParameterMap V) (key : ParamKey) :
    Except String Unit × ParameterMap V :=
  (Except.error "Cannot delete parameters", m)

/-- `_parameterMap.clear`: raises `NotImplementedError` before any mutation. -/
def ParameterMap.clear {V : Type} (m : ParameterMap V) :
    Except String Unit × ParameterMap V :=
  (Except.error "Cannot clear parameters", m)

/-- `_parameterMap.update`: raises `NotImplementedError` before any
mutation, whatever arguments are passed. -/
def ParameterMap.updateMeth {V : Type} (m : ParameterMap V)
    (args : List (ParamKey × V)) : Except String Unit × ParameterMap V :=
  (Except.error "Cannot update parameters", m)

/-- The jax parameter triple a `_parameterMap` should carry, derived from
its stored dictionary: the three known entries in order. -/
def ParameterMap.derivedTriple {V : Type} (m : ParameterMap V) : V × V × V :=
  (m.parameters ParamKey.det_coeff, m.parameters ParamKey.mo_coeff_alpha,
    m.parameters ParamKey.mo_coeff_beta)

/-! ### Helper lemmas on signs and the extended log domain -/

lemma real_sign_mul (a b : ℝ) : Real.sign (a * b) = Real.sign a * Real.sign b := by
  rcases lt_trichotomy a 0 with ha | rfl | ha
  · rcases lt_trichotomy b 0 with hb | rfl | hb
    · rw [Real.sign_of_pos (mul_pos_of_neg_of_neg ha hb), Real.sign_of_neg ha,
        Real.sign_of_neg hb]
      norm_num
    · simp [Real.sign_zero]
    · rw [Real.sign_of_neg (mul_neg_of_neg_of_pos ha hb), Real.sign_of_neg ha,
        Real.sign_of_pos hb]
      norm_num
  · simp [Real.sign_zero]
  · rcases lt_trichotomy b 0 with hb | rfl | hb
    · rw [Real.sign_of_neg (mul_neg_of_pos_of_neg ha hb), Real.sign_of_pos ha,
        Real.sign_of_neg hb]
      norm_num
    · simp [Real.sign_zero]
    · rw [Real.sign_of_pos (mul_pos ha hb), Real.sign_of_pos ha, Real.sign_of_pos hb]
      norm_num

lemma real_sign_sign (a : ℝ) : Real.sign (Real.sign a) = Real.sign a := by
  rcases lt_trichotomy a 0 with ha | rfl | ha
  · rw [Real.sign_of_neg ha]
    exact Real.sign_of_neg (by norm_num)
  · simp [Real.sign_zero]
  · rw [Real.sign_of_pos ha]
    exact Real.sign_one

lemma real_sign_div (a b : ℝ) : Real.sign (a / b) = Real.sign a * Real.sign b := by
  rw [div_eq_mul_inv, real_sign_mul, Real.sign_inv]

lemma expE_bot : expE ⊥ = 0 := by simp [expE]

lemma expE_coe (x : ℝ) : expE ((x : ℝ) : EReal) = Real.exp x := by
  rw [expE, if_neg (EReal.coe_ne_bot x), if_neg (EReal.coe_ne_top x), EReal.toReal_coe]

lemma expE_zero : expE (0 : EReal) = 1 := by
  rw [← EReal.coe_zero, expE_coe, Real.exp_zero]

lemma elog_zero : elog 0 = ⊥ := by simp [elog]

lemma elog_one : elog 1 = 0 := by
  rw [elog, if_neg one_ne_zero]
  norm_num

lemma elog_ne_top (x : ℝ) : elog x ≠ ⊤ := by
  rw [elog]
  split
  · exact bot_ne_top
  · exact EReal.coe_ne_top _

lemma elog_of_ne_zero {x : ℝ} (h : x ≠ 0) : elog x = ((Real.log |x| : ℝ) : EReal) := by
  rw [elog, if_neg h]

lemma slogdetLogabs_ne_top {n : ℕ} (M : Matrix (Fin n) (Fin n) ℝ) :
    slogdetLogabs M ≠ ⊤ := elog_ne_top _

/-! ### Claim theorems -/

/-- C1: `evaluate_expansion` combines the per-spin determinant results
exactly as the spec's log-sum-exp-with-sign pattern: per CI term the
log-magnitude is the sum of the mapped up and down log-magnitudes and the
sign the product of the mapped signs; the maximum term log-magnitude is the
reference; the coefficient-weighted signed exponentials of the shifted
log-magnitudes are summed; and the returned pair is (sign of that sum, log
of its absolute value plus the reference). -/
theorem evaluate_expansion_is_logsumexp_sign
    {m ndu ndd nup ndown norb nbasis : ℕ}
    (gto1 : Pos → Fin nbasis → ℝ)
    (expansion : DeterminantExpansion (m + 1) ndu ndd nup ndown norb)
    (det_params : DeterminantParameters (m + 1) norb nbasis)
    (xyz : Fin (nup + ndown) → Pos) :
    ((evaluate_expansion gto1 expansion det_params xyz).1,
        (evaluate_expansion gto1 expansion det_params xyz).2.1) =
      logsumexp_sign_spec det_params.ci_coeff
        (evaluate_expansion gto1 expansion det_params xyz).2.2.1.sign
        (evaluate_expansion gto1 expansion det_params xyz).2.2.1.logabsdet
        (evaluate_expansion gto1 expansion det_params xyz).2.2.2.sign
        (evaluate_expansion gto1 expansion det_params xyz).2.2.2.logabsdet
        expansion.mapping_up expansion.mapping_down := rfl

/-- C9: the propose operation `JAXSlater.testvalue` is pure: the object
state it hands back is exactly the input state (no cached field, parameter
or expansion datum is mutated), and a second identical call on the
post-call state returns the identical result. -/
theorem jaxslater_testvalue_pure
    {nconfig m ndu ndd nup ndown norb nbasis : ℕ}
    (wf : JAXSlater nconfig (m + 1) ndu ndd nup ndown norb nbasis)
    (e : Fin (nup + ndown)) (epos : Fin nconfig → Pos) :
    (wf.testvalue e epos).2 = wf ∧
      ((wf.testvalue e epos).2).testvalue e epos = wf.testvalue e epos :=
  ⟨rfl, rfl⟩

/-- C10: on the parameter container, `__delitem__`, `clear` and `update`
always raise `NotImplementedError` (modelled as an `Except.error` result)
and leave both the stored dictionary and the derived jax parameter triple
unchanged, while `__setitem__` on any of the three known keys succeeds and
rebuilds the jax parameter triple consistently from the three current
dictionary entries. -/
theorem parameterMap_guards_and_setitem_consistency
    {V : Type} (m : ParameterMap V) (k : ParamKey) (item : V)
    (args : List (ParamKey × V)) :
    m.delitem k = (Except.error "Cannot delete parameters", m) ∧
      m.clear = (Except.error "Cannot clear parameters", m) ∧
      m.updateMeth args = (Except.error "Cannot update parameters", m) ∧
      (m.setitem k item).jax_parameters = (m.setitem k item).derivedTriple :=
  ⟨rfl, rfl, rfl, rfl⟩

/-! ### Concrete fixtures used to evaluate the model at small inputs -/

/-- A single-electron basis evaluator that is constantly `1`. -/
def gtoOne : Pos → Fin 1 → ℝ := fun _ _ => 1

/-- A single-electron basis evaluator that is constantly `0`. -/
def gtoZero : Pos → Fin 1 → ℝ := fun _ _ => 0

/-- The trivial one-term expansion over one up and one down determinant. -/
def expnOne : DeterminantExpansion 1 1 1 1 1 1 :=
  ⟨fun _ => 0, fun _ => 0, fun _ _ => 0, fun _ _ => 0⟩

/-- Parameters with CI coefficient `1` and all-ones orbital matrices. -/
def parOne : DeterminantParameters 1 1 1 :=
  ⟨fun _ => 1, fun _ _ => 1, fun _ _ => 1⟩

/-- A configuration with both electrons at the origin. -/
def xyzZero : Fin (1 + 1) → Pos := fun _ _ => 0

/-- A two-term expansion whose CI terms both use the unique up and down
determinants. -/
def expnTwo : DeterminantExpansion 2 1 1 1 1 1 :=
  ⟨fun _ => 0, fun _ => 0, fun _ _ => 0, fun _ _ => 0⟩

/-- Parameters with CI coefficients `(1, -1)` (an exactly cancelling pair)
and all-ones orbital matrices. -/
def parCancel : DeterminantParameters 2 1 1 :=
  ⟨![1, -1], fun _ _ => 1, fun _ _ => 1⟩

/-- A consistent one-electron, one-determinant state: the orbital value is
`1`, so the determinant has sign `1`, log-magnitude `0` and inverse `1`. -/
def stateOne : SlaterState 1 1 1 :=
  ⟨Matrix.of fun _ _ => 1, fun _ => 1, fun _ => 0, fun _ => Matrix.of fun _ _ => 1⟩

/-- A wavefunction object whose cached per-configuration sign is `-1`,
deliberately different from the `+1` a fresh recompute at `xyzZero`
produces. -/
def staleWf : JAXSlater 1 1 1 1 1 1 1 1 where
  gto1 := gtoOne
  expansion := expnOne
  parameters := parOne
  sign := fun _ => -1
  logabs := fun _ => 0
  dets_up := fun _ => ⟨Matrix.of fun _ _ => 1, fun _ => 1, fun _ => 0, fun _ => Matrix.of fun _ _ => 1⟩
  dets_down := fun _ => ⟨Matrix.of fun _ _ => 1, fun _ => 1, fun _ => 0, fun _ => Matrix.of fun _ _ => 1⟩

lemma ereal_coe_sub_coe (x y : ℝ) : (x : EReal) - (y : EReal) = ((x - y : ℝ) : EReal) :=
  (EReal.coe_sub x y).symm

lemma ereal_zero_sub_zero : (0 : EReal) - (0 : EReal) = 0 := by
  rw [← EReal.coe_zero, ereal_coe_sub_coe]
  norm_num

/-- C4 counterexample: with the accept mask false for every configuration,
`updateinternals` still replaces the cached sign of configuration `0`
(the stale `-1` becomes the freshly recomputed `+1`), so a mask-false
configuration does not retain its prior cached state. -/
theorem updateinternals_mask_false_counterexample :
    (staleWf.updateinternals 0 (fun _ _ => 0) (fun _ => xyzZero) (fun _ => false) none).sign 0 ≠
      staleWf.sign 0 := by
  have hnew :
      (staleWf.updateinternals 0 (fun _ _ => 0) (fun _ => xyzZero) (fun _ => false) none).sign 0 =
        1 := by
    simp only [JAXSlater.updateinternals, JAXSlater.recompute, evaluate_expansion,
      compute_determinants, compute_one_determinant, slogdetSign, slogdetLogabs, takeCols,
      staleWf, gtoOne, expnOne, parOne, xyzZero, Matrix.mul_apply, Matrix.of_apply,
      Fin.sum_univ_one, Matrix.det_fin_one, Finset.sup'_const, elog_one, one_mul, mul_one,
      Real.sign_one, add_zero, ereal_zero_sub_zero, expE_zero]
  rw [hnew]
  have hold : staleWf.sign 0 = -1 := rfl
  rw [hold]
  norm_num

/-- C4 (amended): `JAXSlater.updateinternals` always performs a full
recompute of every configuration from the passed configurations; the
electron index, proposed position, accept mask and saved values are ignored
(so its result is independent of the mask and of the saved values), and a
mask-false configuration retains its prior cached state only to the extent
that this state already equals a fresh recompute. -/
theorem updateinternals_is_full_recompute
    {nconfig m ndu ndd nup ndown norb nbasis : ℕ}
    (wf : JAXSlater nconfig (m + 1) ndu ndd nup ndown norb nbasis)
    (e e' : Fin (nup + ndown)) (epos epos' : Fin nconfig → Pos)
    (configs : Fin nconfig → Fin (nup + ndown) → Pos)
    (mask mask' : Fin nconfig → Bool)
    (saved saved' : Option (Fin nconfig → Fin norb → ℝ)) :
    wf.updateinternals e epos configs mask saved = wf.recompute configs ∧
      wf.updateinternals e epos configs mask saved =
        wf.updateinternals e' epos' configs mask' saved' :=
  ⟨rfl, rfl⟩

/-- C5: a singular occupied-orbital submatrix makes the batch evaluator
return sign `0` and log-magnitude `-∞` (modelled `⊥`) for that determinant;
every determinant's result is still the per-determinant slogdet (so nothing
halts the rest of the batch), and the singular entry flows through
`evaluate_expansion`'s combiner as data. -/
theorem compute_determinants_singular_flows_through
    {m ndu ndd nup ndown norb nbasis : ℕ}
    (gto1 : Pos → Fin nbasis → ℝ)
    (expansion : DeterminantExpansion (m + 1) ndu ndd nup ndown norb)
    (det_params : DeterminantParameters (m + 1) norb nbasis)
    (xyz : Fin (nup + ndown) → Pos) (d : Fin ndu)
    (h : (takeCols (evaluate_expansion gto1 expansion det_params xyz).2.2.1.mo_values
        (expansion.determinants_up d)).det = 0) :
    (evaluate_expansion gto1 expansion det_params xyz).2.2.1.sign d = 0 ∧
      (evaluate_expansion gto1 expansion det_params xyz).2.2.1.logabsdet d = ⊥ ∧
      (∀ d' : Fin ndu,
        (evaluate_expansion gto1 expansion det_params xyz).2.2.1.sign d' =
          slogdetSign (takeCols
            (evaluate_expansion gto1 expansion det_params xyz).2.2.1.mo_values
            (expansion.determinants_up d')) ∧
        (evaluate_expansion gto1 expansion det_params xyz).2.2.1.logabsdet d' =
          slogdetLogabs (takeCols
            (evaluate_expansion gto1 expansion det_params xyz).2.2.1.mo_values
            (expansion.determinants_up d'))) ∧
      ((evaluate_expansion gto1 expansion det_params xyz).1,
          (evaluate_expansion gto1 expansion det_params xyz).2.1) =
        logsumexp_sign_spec det_params.ci_coeff
          (evaluate_expansion gto1 expansion det_params xyz).2.2.1.sign
          (evaluate_expansion gto1 expansion det_params xyz).2.2.1.logabsdet
          (evaluate_expansion gto1 expansion det_params xyz).2.2.2.sign
          (evaluate_expansion gto1 expansion det_params xyz).2.2.2.logabsdet
          expansion.mapping_up expansion.mapping_down := by
  refine ⟨?_, ?_, fun d' => ⟨rfl, rfl⟩, rfl⟩
  · show Real.sign (takeCols (evaluate_expansion gto1 expansion det_params xyz).2.2.1.mo_values
        (expansion.determinants_up d)).det = 0
    rw [h, Real.sign_zero]
  · show elog (takeCols (evaluate_expansion gto1 expansion det_params xyz).2.2.1.mo_values
        (expansion.determinants_up d)).det = ⊥
    rw [h, elog_zero]

/-- C5 witness: with a basis evaluator that vanishes identically, the
occupied submatrix of the unique up determinant is singular, and the batch
evaluator reports sign `0` and log-magnitude `⊥` for it while the rest of
the results are still well defined. -/
theorem compute_determinants_singular_flows_through_witness :
    (takeCols (evaluate_expansion gtoZero expnOne parOne xyzZero).2.2.1.mo_values
        (expnOne.determinants_up 0)).det = 0 ∧
      ((evaluate_expansion gtoZero expnOne parOne xyzZero).2.2.1.sign 0 = 0 ∧
        (evaluate_expansion gtoZero expnOne parOne xyzZero).2.2.1.logabsdet 0 = ⊥ ∧
        (∀ d' : Fin 1,
          (evaluate_expansion gtoZero expnOne parOne xyzZero).2.2.1.sign d' =
            slogdetSign (takeCols
              (evaluate_expansion gtoZero expnOne parOne xyzZero).2.2.1.mo_values
              (expnOne.determinants_up d')) ∧
          (evaluate_expansion gtoZero expnOne parOne xyzZero).2.2.1.logabsdet d' =
            slogdetLogabs (takeCols
              (evaluate_expansion gtoZero expnOne parOne xyzZero).2.2.1.mo_values
              (expnOne.determinants_up d'))) ∧
        ((evaluate_expansion gtoZero expnOne parOne xyzZero).1,
            (evaluate_expansion gtoZero expnOne parOne xyzZero).2.1) =
          logsumexp_sign_spec parOne.ci_coeff
            (evaluate_expansion gtoZero expnOne parOne xyzZero).2.2.1.sign
            (evaluate_expansion gtoZero expnOne parOne xyzZero).2.2.1.logabsdet
            (evaluate_expansion gtoZero expnOne parOne xyzZero).2.2.2.sign
            (evaluate_expansion gtoZero expnOne parOne xyzZero).2.2.2.logabsdet
            expnOne.mapping_up expnOne.mapping_down) := by
  have h : (takeCols (evaluate_expansion gtoZero expnOne parOne xyzZero).2.2.1.mo_values
      (expnOne.determinants_up 0)).det = 0 := by
    simp [evaluate_expansion, compute_determinants, takeCols, gtoZero, expnOne, parOne,
      xyzZero, Matrix.mul_apply, Matrix.det_fin_one]
  exact ⟨h, compute_determinants_singular_flows_through gtoZero expnOne parOne xyzZero 0 h⟩

/-! ### Sherman-Morrison row update -/

lemma smr_right_inverse {n : ℕ} (e : Fin n) (M A : Matrix (Fin n) (Fin n) ℝ)
    (v : Fin n → ℝ) (hMA : M * A = 1) (hr : (∑ k, v k * A k e) ≠ 0) :
    M.updateRow e v *
      (Matrix.of fun k j => if j = e then A k e / (∑ k', v k' * A k' e)
        else A k j - A k e / (∑ k', v k' * A k' e) * (∑ k', v k' * A k' j)) = 1 := by
  have hMAapp : ∀ i j, (∑ k, M i k * A k j) = if i = j then (1 : ℝ) else 0 := by
    intro i j
    have h2 := congrFun (congrFun hMA i) j
    rwa [Matrix.mul_apply, Matrix.one_apply] at h2
  ext i j
  rw [Matrix.mul_apply, Matrix.one_apply]
  by_cases hi : i = e
  · by_cases hj : j = e
    · simp only [hi, hj, Matrix.updateRow_apply, Matrix.of_apply, eq_self_iff_true, if_true]
      simp only [← mul_div_assoc]
      rw [← Finset.sum_div, div_self hr]
    · simp only [hi, hj, Matrix.updateRow_apply, Matrix.of_apply, eq_self_iff_true, if_true,
        if_false]
      rw [if_neg fun h2 => hj h2.symm]
      have hterm : ∀ k : Fin n,
          v k * (A k j - A k e / (∑ k', v k' * A k' e) * (∑ k', v k' * A k' j)) =
            v k * A k j -
              v k * A k e * ((∑ k', v k' * A k' j) / (∑ k', v k' * A k' e)) := by
        intro k
        ring
      rw [Finset.sum_congr rfl fun k _ => hterm k, Finset.sum_sub_distrib, ← Finset.sum_mul,
        ← mul_div_assoc, mul_div_cancel_left₀ _ hr, sub_self]
  · by_cases hj : j = e
    · simp only [hi, hj, Matrix.updateRow_apply, Matrix.of_apply, eq_self_iff_true, if_true,
        if_false]
      simp only [← mul_div_assoc]
      rw [← Finset.sum_div, hMAapp i e, if_neg hi, zero_div]
    · simp only [hi, hj, Matrix.updateRow_apply, Matrix.of_apply, if_false]
      have hterm : ∀ k : Fin n,
          M i k * (A k j - A k e / (∑ k', v k' * A k' e) * (∑ k', v k' * A k' j)) =
            M i k * A k j -
              M i k * A k e * ((∑ k', v k' * A k' j) / (∑ k', v k' * A k' e)) := by
        intro k
        ring
      rw [Finset.sum_congr rfl fun k _ => hterm k, Finset.sum_sub_distrib, ← Finset.sum_mul,
        hMAapp i e, if_neg hi, zero_mul, sub_zero, hMAapp i j]

/-- C3 (amended): when the cached inverse `A` is the exact inverse of the
occupied-orbital submatrix `M` and the update ratio is nonzero, the
Sherman-Morrison step computes the ratio as the determinant-ratio lemma
scalar, and — after subtracting the outer product and overwriting electron
`e`'s COLUMN (not row) of the inverse with the scaled old column — returns
the exact inverse of the submatrix with electron `e`'s row replaced by the
new orbital row. -/
theorem sherman_morrison_row_updates_inverse {n norb : ℕ} (e : Fin n)
    (M A : Matrix (Fin n) (Fin n) ℝ) (mos : Fin norb → ℝ) (det : Fin n → Fin norb)
    (hMA : M * A = 1)
    (hr : (sherman_morrison_row e A mos det).1 ≠ 0) :
    (sherman_morrison_row e A mos det).1 = determinant_lemma mos A det e ∧
      M.updateRow e (fun k => mos (det k)) * (sherman_morrison_row e A mos det).2 = 1 ∧
      (sherman_morrison_row e A mos det).2 = (M.updateRow e (fun k => mos (det k)))⁻¹ := by
  have hr' : (∑ k, mos (det k) * A k e) ≠ 0 := hr
  have hright : M.updateRow e (fun k => mos (det k)) * (sherman_morrison_row e A mos det).2 = 1 := by
    have h2 := smr_right_inverse e M A (fun k => mos (det k)) hMA hr'
    exact h2
  exact ⟨rfl, hright, (Matrix.inv_eq_right_inv hright).symm⟩

/-- C3 witness: for the 2-by-2 identity submatrix with cached inverse the
identity and new orbital row `(2, 3)`, the hypotheses hold (the ratio is
`2`), and the Sherman-Morrison step returns the exact inverse of the
row-replaced matrix. -/
theorem sherman_morrison_row_updates_inverse_witness :
    ((1 : Matrix (Fin 2) (Fin 2) ℝ) * 1 = 1) ∧
      (sherman_morrison_row (0 : Fin 2) (1 : Matrix (Fin 2) (Fin 2) ℝ)
          (![2, 3] : Fin 2 → ℝ) id).1 ≠ 0 ∧
      ((sherman_morrison_row (0 : Fin 2) (1 : Matrix (Fin 2) (Fin 2) ℝ)
            (![2, 3] : Fin 2 → ℝ) id).1 =
          determinant_lemma (![2, 3] : Fin 2 → ℝ) 1 id 0 ∧
        (1 : Matrix (Fin 2) (Fin 2) ℝ).updateRow 0
            (fun k => (![2, 3] : Fin 2 → ℝ) (id k)) *
            (sherman_morrison_row (0 : Fin 2) (1 : Matrix (Fin 2) (Fin 2) ℝ)
              (![2, 3] : Fin 2 → ℝ) id).2 = 1 ∧
        (sherman_morrison_row (0 : Fin 2) (1 : Matrix (Fin 2) (Fin 2) ℝ)
            (![2, 3] : Fin 2 → ℝ) id).2 =
          ((1 : Matrix (Fin 2) (Fin 2) ℝ).updateRow 0
            (fun k => (![2, 3] : Fin 2 → ℝ) (id k)))⁻¹) := by
  have hMA : (1 : Matrix (Fin 2) (Fin 2) ℝ) * 1 = 1 := one_mul 1
  have hr : (sherman_morrison_row (0 : Fin 2) (1 : Matrix (Fin 2) (Fin 2) ℝ)
      (![2, 3] : Fin 2 → ℝ) id).1 ≠ 0 := by
    show (∑ k : Fin 2, (![2, 3] : Fin 2 → ℝ) (id k) * (1 : Matrix (Fin 2) (Fin 2) ℝ) k 0) ≠ 0
    rw [Fin.sum_univ_two]
    norm_num [Matrix.one_apply]
  exact ⟨hMA, hr, sherman_morrison_row_updates_inverse 0 1 1 ![2, 3] id hMA hr⟩

/-- C3 counterexample: overwriting the electron's ROW of the inverse, as the
claim words it, is not what the code does and does not produce the inverse:
at the 2-by-2 identity with new orbital row `(2, 3)` the row-overwrite
variant differs from `sherman_morrison_row` at entry `(0, 1)`, and the
product of the row-replaced matrix with the row-overwrite result has entry
`(0, 1)` equal to `3`, not the identity's `0`. -/
theorem sherman_morrison_row_described_counterexample :
    ((1 : Matrix (Fin 2) (Fin 2) ℝ) * 1 = 1) ∧
      (sherman_morrison_row_described (0 : Fin 2) (1 : Matrix (Fin 2) (Fin 2) ℝ)
          (![2, 3] : Fin 2 → ℝ) id).1 ≠ 0 ∧
      (sherman_morrison_row_described (0 : Fin 2) (1 : Matrix (Fin 2) (Fin 2) ℝ)
            (![2, 3] : Fin 2 → ℝ) id).2 0 1 ≠
        (sherman_morrison_row (0 : Fin 2) (1 : Matrix (Fin 2) (Fin 2) ℝ)
            (![2, 3] : Fin 2 → ℝ) id).2 0 1 ∧
      ((1 : Matrix (Fin 2) (Fin 2) ℝ).updateRow 0
            (fun k => (![2, 3] : Fin 2 → ℝ) (id k)) *
          (sherman_morrison_row_described (0 : Fin 2)
            (1 : Matrix (Fin 2) (Fin 2) ℝ) (![2, 3] : Fin 2 → ℝ) id).2) 0 1 ≠
        (1 : Matrix (Fin 2) (Fin 2) ℝ) 0 1 := by
  refine ⟨one_mul 1, ?_, ?_, ?_⟩
  · show (∑ k : Fin 2, (![2, 3] : Fin 2 → ℝ) (id k) * (1 : Matrix (Fin 2) (Fin 2) ℝ) k 0) ≠ 0
    rw [Fin.sum_univ_two]
    norm_num [Matrix.one_apply]
  · simp only [sherman_morrison_row_described, sherman_morrison_row, Matrix.of_apply,
      Fin.sum_univ_two, Matrix.one_apply, id]
    norm_num
  · rw [Matrix.mul_apply, Fin.sum_univ_two]
    simp only [sherman_morrison_row_described, Matrix.of_apply, Fin.sum_univ_two,
      Matrix.one_apply, Matrix.updateRow_apply, id]
    norm_num

/-! ### Single-term expansion -/

lemma abs_real_sign_of_ne_zero {a : ℝ} (h : a ≠ 0) : |Real.sign a| = 1 := by
  rcases Real.sign_apply_eq_of_ne_zero a h with h1 | h1 <;> rw [h1] <;> norm_num

lemma single_term_values (a b : ℝ) :
    Real.sign (Real.sign a * Real.sign b * expE ((elog a + elog b) - (elog a + elog b))) =
      Real.sign a * Real.sign b ∧
    elog (Real.sign a * Real.sign b * expE ((elog a + elog b) - (elog a + elog b))) +
        (elog a + elog b) = elog a + elog b := by
  by_cases ha : a = 0
  · simp [ha, elog_zero, Real.sign_zero, EReal.bot_add, EReal.bot_sub, expE_bot]
  · by_cases hb : b = 0
    · simp [hb, elog_zero, Real.sign_zero, EReal.add_bot, EReal.bot_sub, expE_bot]
    · rw [elog_of_ne_zero ha, elog_of_ne_zero hb, ← EReal.coe_add, ereal_coe_sub_coe,
        sub_self, EReal.coe_zero, expE_zero, mul_one]
      have hs : Real.sign a * Real.sign b ≠ 0 :=
        mul_ne_zero (fun h => ha (Real.sign_eq_zero_iff.mp h))
          (fun h => hb (Real.sign_eq_zero_iff.mp h))
      constructor
      · rw [real_sign_mul, real_sign_sign, real_sign_sign]
      · rw [elog_of_ne_zero hs, abs_mul, abs_real_sign_of_ne_zero ha,
          abs_real_sign_of_ne_zero hb, mul_one, Real.log_one, EReal.coe_zero, zero_add]

/-- C8: for a CI expansion with exactly one term (one up determinant, one
down determinant, CI coefficient `1`), `evaluate_expansion` returns exactly
the plain Slater result: sign the product of the up and down signs,
log-magnitude the sum of the up and down log-magnitudes, and the combiner's
reference equal to the single term's log-magnitude (shift exactly zero). -/
theorem evaluate_expansion_single_term_reduces
    {nup ndown norb nbasis : ℕ}
    (gto1 : Pos → Fin nbasis → ℝ)
    (expansion : DeterminantExpansion 1 1 1 nup ndown norb)
    (det_params : DeterminantParameters 1 norb nbasis)
    (xyz : Fin (nup + ndown) → Pos)
    (hci : det_params.ci_coeff = fun _ => 1) :
    (evaluate_expansion gto1 expansion det_params xyz).1 =
      (evaluate_expansion gto1 expansion det_params xyz).2.2.1.sign 0 *
        (evaluate_expansion gto1 expansion det_params xyz).2.2.2.sign 0 ∧
    (evaluate_expansion gto1 expansion det_params xyz).2.1 =
      (evaluate_expansion gto1 expansion det_params xyz).2.2.1.logabsdet 0 +
        (evaluate_expansion gto1 expansion det_params xyz).2.2.2.logabsdet 0 ∧
    Finset.univ.sup' Finset.univ_nonempty (fun i : Fin 1 =>
        (evaluate_expansion gto1 expansion det_params xyz).2.2.1.logabsdet
            (expansion.mapping_up i) +
          (evaluate_expansion gto1 expansion det_params xyz).2.2.2.logabsdet
            (expansion.mapping_down i)) =
      (evaluate_expansion gto1 expansion det_params xyz).2.2.1.logabsdet 0 +
        (evaluate_expansion gto1 expansion det_params xyz).2.2.2.logabsdet 0 := by
  have hmu : ∀ i : Fin 1, expansion.mapping_up i = 0 := fun i => Subsingleton.elim _ _
  have hmd : ∀ i : Fin 1, expansion.mapping_down i = 0 := fun i => Subsingleton.elim _ _
  refine ⟨?_, ?_, ?_⟩
  · simp only [evaluate_expansion, compute_determinants, compute_one_determinant, slogdetSign,
      slogdetLogabs, hmu, hmd, hci, Fin.sum_univ_one, Finset.sup'_const, one_mul]
    exact (single_term_values _ _).1
  · simp only [evaluate_expansion, compute_determinants, compute_one_determinant, slogdetSign,
      slogdetLogabs, hmu, hmd, hci, Fin.sum_univ_one, Finset.sup'_const, one_mul]
    exact (single_term_values _ _).2
  · simp only [evaluate_expansion, compute_determinants, compute_one_determinant,
      slogdetLogabs, hmu, hmd, Finset.sup'_const]

/-- C8 witness: the single-term fixture (constant basis evaluator, all-ones
orbital matrices, CI coefficient `1`) satisfies the hypothesis, and the
combined result is exactly the product of signs and sum of log-magnitudes
with reference equal to the term's log-magnitude. -/
theorem evaluate_expansion_single_term_reduces_witness :
    (parOne.ci_coeff = fun _ => 1) ∧
      ((evaluate_expansion gtoOne expnOne parOne xyzZero).1 =
        (evaluate_expansion gtoOne expnOne parOne xyzZero).2.2.1.sign 0 *
          (evaluate_expansion gtoOne expnOne parOne xyzZero).2.2.2.sign 0 ∧
      (evaluate_expansion gtoOne expnOne parOne xyzZero).2.1 =
        (evaluate_expansion gtoOne expnOne parOne xyzZero).2.2.1.logabsdet 0 +
          (evaluate_expansion gtoOne expnOne parOne xyzZero).2.2.2.logabsdet 0 ∧
      Finset.univ.sup' Finset.univ_nonempty (fun i : Fin 1 =>
          (evaluate_expansion gtoOne expnOne parOne xyzZero).2.2.1.logabsdet
              (expnOne.mapping_up i) +
            (evaluate_expansion gtoOne expnOne parOne xyzZero).2.2.2.logabsdet
              (expnOne.mapping_down i)) =
        (evaluate_expansion gtoOne expnOne parOne xyzZero).2.2.1.logabsdet 0 +
          (evaluate_expansion gtoOne expnOne parOne xyzZero).2.2.2.logabsdet 0) :=
  ⟨rfl, evaluate_expansion_single_term_reduces gtoOne expnOne parOne xyzZero rfl⟩

/-! ### No-op single-electron move -/

/-- C7 (amended): with cached inverses exactly inverting the occupied
submatrices and the proposed position reproducing electron `e`'s current
orbital row, every per-determinant determinant-lemma ratio is exactly `1`,
and — provided the combined old value is nonzero (the state is not at a
wavefunction node) — the ratio returned by `testvalue_up` is exactly `1`. -/
theorem testvalue_up_noop_move_ratio_one
    {m ndu ndd nup ndown norb nbasis : ℕ}
    (gto1 : Pos → Fin nbasis → ℝ)
    (expansion : DeterminantExpansion (m + 1) ndu ndd nup ndown norb)
    (det_params : DeterminantParameters (m + 1) norb nbasis)
    (dets_up : SlaterState nup ndu norb) (dets_down : SlaterState ndown ndd norb)
    (e : Fin nup) (xyz : Pos)
    (hInv : ∀ d, takeCols dets_up.mo_values (expansion.determinants_up d) *
        dets_up.inverse d = 1)
    (hRow : ∀ o, (∑ b, gto1 xyz b * det_params.mo_coeff_alpha b o) =
        dets_up.mo_values e o)
    (hOld : (∑ i, det_params.ci_coeff i *
        (dets_up.sign (expansion.mapping_up i) * dets_down.sign (expansion.mapping_down i)) *
        expE ((dets_up.logabsdet (expansion.mapping_up i) +
            dets_down.logabsdet (expansion.mapping_down i)) -
          Finset.univ.sup' Finset.univ_nonempty (fun i' =>
            dets_up.logabsdet (expansion.mapping_up i') +
              dets_down.logabsdet (expansion.mapping_down i')))) ≠ 0) :
    (∀ d, determinant_lemma (fun o => ∑ b, gto1 xyz b * det_params.mo_coeff_alpha b o)
        (dets_up.inverse d) (expansion.determinants_up d) e = 1) ∧
      (testvalue_up gto1 expansion det_params dets_up dets_down e xyz).1 = 1 := by
  have hratio : ∀ d, determinant_lemma
      (fun o => ∑ b, gto1 xyz b * det_params.mo_coeff_alpha b o)
      (dets_up.inverse d) (expansion.determinants_up d) e = 1 := by
    intro d
    have h2 := congrFun (congrFun (hInv d) e) e
    rw [Matrix.mul_apply, Matrix.one_apply_eq] at h2
    calc determinant_lemma (fun o => ∑ b, gto1 xyz b * det_params.mo_coeff_alpha b o)
          (dets_up.inverse d) (expansion.determinants_up d) e
        = ∑ k, dets_up.mo_values e (expansion.determinants_up d k) * dets_up.inverse d k e :=
          Finset.sum_congr rfl fun k _ => by simp only [hRow]
      _ = 1 := h2
  refine ⟨hratio, ?_⟩
  simp only [testvalue_up, hratio, Real.sign_one, one_mul, elog_one, add_zero, max_self]
  exact div_self hOld

/-- C7 counterexample: a valid state with exact cached inverses sitting on a
wavefunction node (two CI terms with coefficients `1` and `-1` that cancel
exactly): proposing the move of the up electron to its current position
returns ratio `0/0 = 0`, not `1`, even though every hypothesis of the claim
(exact inverses, current-position move) holds. -/
theorem testvalue_up_noop_move_counterexample :
    (∀ d : Fin 1, takeCols stateOne.mo_values (expnTwo.determinants_up d) *
        stateOne.inverse d = 1) ∧
      (∀ o : Fin 1, (∑ b, gtoOne (fun _ => 0) b * parCancel.mo_coeff_alpha b o) =
        stateOne.mo_values 0 o) ∧
      (testvalue_up gtoOne expnTwo parCancel stateOne stateOne 0 (fun _ => 0)).1 ≠ 1 := by
  refine ⟨?_, ?_, ?_⟩
  · intro d
    ext i j
    have hij : i = j := Subsingleton.elim i j
    rw [hij, Matrix.one_apply_eq, Matrix.mul_apply, Fin.sum_univ_one]
    simp [takeCols, stateOne]
  · intro o
    simp [gtoOne, parCancel, stateOne, Fin.sum_univ_one]
  · have hval : (testvalue_up gtoOne expnTwo parCancel stateOne stateOne 0 (fun _ => 0)).1 = 0 := by
      simp only [testvalue_up, determinant_lemma, Fin.sum_univ_one, Fin.sum_univ_two,
        gtoOne, expnTwo, parCancel, stateOne, Matrix.of_apply, Matrix.cons_val_zero,
        Matrix.cons_val_one, Matrix.head_cons, one_mul, mul_one, Real.sign_one, elog_one,
        add_zero, Finset.sup'_const, max_self, ereal_zero_sub_zero, expE_zero]
      norm_num
    rw [hval]
    norm_num

/-- C7 witness (for the amended theorem): at the one-term fixture away from
any node, the hypotheses hold and the no-op move ratio is exactly `1`. -/
theorem testvalue_up_noop_move_ratio_one_witness :
    (∀ d : Fin 1, takeCols stateOne.mo_values (expnOne.determinants_up d) *
        stateOne.inverse d = 1) ∧
      (∀ o : Fin 1, (∑ b, gtoOne (fun _ => 0) b * parOne.mo_coeff_alpha b o) =
        stateOne.mo_values 0 o) ∧
      ((∑ i : Fin 1, parOne.ci_coeff i *
          (stateOne.sign (expnOne.mapping_up i) * stateOne.sign (expnOne.mapping_down i)) *
          expE ((stateOne.logabsdet (expnOne.mapping_up i) +
              stateOne.logabsdet (expnOne.mapping_down i)) -
            Finset.univ.sup' Finset.univ_nonempty (fun i' =>
              stateOne.logabsdet (expnOne.mapping_up i') +
                stateOne.logabsdet (expnOne.mapping_down i')))) ≠ 0) ∧
      ((∀ d, determinant_lemma
          (fun o => ∑ b, gtoOne (fun _ => 0) b * parOne.mo_coeff_alpha b o)
          (stateOne.inverse d) (expnOne.determinants_up d) 0 = 1) ∧
        (testvalue_up gtoOne expnOne parOne stateOne stateOne 0 (fun _ => 0)).1 = 1) := by
  have h1 : ∀ d : Fin 1, takeCols stateOne.mo_values (expnOne.determinants_up d) *
      stateOne.inverse d = 1 := by
    intro d
    ext i j
    have hij : i = j := Subsingleton.elim i j
    rw [hij, Matrix.one_apply_eq, Matrix.mul_apply, Fin.sum_univ_one]
    simp [takeCols, stateOne]
  have h2 : ∀ o : Fin 1, (∑ b, gtoOne (fun _ => 0) b * parOne.mo_coeff_alpha b o) =
      stateOne.mo_values 0 o := by
    intro o
    simp [gtoOne, parOne, stateOne, Fin.sum_univ_one]
  have h3 : (∑ i : Fin 1, parOne.ci_coeff i *
      (stateOne.sign (expnOne.mapping_up i) * stateOne.sign (expnOne.mapping_down i)) *
      expE ((stateOne.logabsdet (expnOne.mapping_up i) +
          stateOne.logabsdet (expnOne.mapping_down i)) -
        Finset.univ.sup' Finset.univ_nonempty (fun i' =>
          stateOne.logabsdet (expnOne.mapping_up i') +
            stateOne.logabsdet (expnOne.mapping_down i')))) ≠ 0 := by
    simp only [Fin.sum_univ_one, parOne, expnOne, stateOne, one_mul, mul_one,
      Finset.sup'_const, add_zero, ereal_zero_sub_zero, expE_zero]
    norm_num
  exact ⟨h1, h2, h3,
    testvalue_up_noop_move_ratio_one gtoOne expnOne parOne stateOne stateOne 0
      (fun _ => 0) h1 h2 h3⟩

/-! ### The determinant-ratio lemma and the log-domain combiner algebra -/

lemma real_sign_mul_abs (x : ℝ) : Real.sign x * |x| = x := by
  rcases lt_trichotomy x 0 with h | rfl | h
  · rw [Real.sign_of_neg h, abs_of_neg h]
    ring
  · simp [Real.sign_zero]
  · rw [Real.sign_of_pos h, abs_of_pos h, one_mul]

lemma real_sign_mul_self {a : ℝ} (h : a ≠ 0) : Real.sign a * Real.sign a = 1 := by
  rcases Real.sign_apply_eq_of_ne_zero a h with h1 | h1 <;> rw [h1] <;> norm_num

/-- The one-row substitution ratio of Cramer's rule: dotting the new row
with column `e` of the inverse gives the ratio of determinants.  With
Lean's division convention the identity also holds at a singular matrix,
where both sides are `0`. -/
lemma det_ratio_lemma {n : ℕ} (M : Matrix (Fin n) (Fin n) ℝ) (v : Fin n → ℝ) (e : Fin n) :
    (∑ k, v k * M⁻¹ k e) = (M.updateRow e v).det / M.det := by
  rw [Matrix.inv_def]
  have h1 : ∀ k, v k * (Ring.inverse M.det • M.adjugate) k e =
      (M.det)⁻¹ * (v k * M.adjugate k e) := by
    intro k
    rw [Matrix.smul_apply, smul_eq_mul, Ring.inverse_eq_inv]
    ring
  rw [Finset.sum_congr rfl fun k _ => h1 k, ← Finset.mul_sum]
  have h2 : (∑ k, v k * M.adjugate k e) = (M.updateRow e v).det := by
    have h3 : ∀ k, M.adjugate k e = (Matrix.transpose M).adjugate e k := by
      intro k
      rw [← Matrix.adjugate_transpose]
      rfl
    rw [Finset.sum_congr rfl fun k _ => by rw [h3 k, mul_comm]]
    have h4 := congrFun (Matrix.cramer_eq_adjugate_mulVec (Matrix.transpose M) v) e
    rw [← Matrix.cramer_transpose_apply M v e, h4]
    simp [Matrix.mulVec, Matrix.dotProduct]
  rw [h2, inv_mul_eq_div]

lemma elog_add_div {a : ℝ} (ha : a ≠ 0) (b : ℝ) : elog a + elog (b / a) = elog b := by
  by_cases hb : b = 0
  · rw [hb, zero_div, elog_zero, EReal.add_bot]
  · have hba : b / a ≠ 0 := div_ne_zero hb ha
    rw [elog_of_ne_zero ha, elog_of_ne_zero hba, elog_of_ne_zero hb, ← EReal.coe_add]
    have : Real.log |a| + Real.log |b / a| = Real.log |b| := by
      rw [abs_div, Real.log_div (abs_ne_zero.mpr hb) (abs_ne_zero.mpr ha)]
      ring
    rw [this]

/-- Per-determinant slogdet transport along the determinant-ratio lemma:
when the old submatrix is nonsingular, the sign and log-magnitude built from
the lemma ratio are the slogdet of the row-replaced submatrix. -/
lemma slogdet_after_row_update {n : ℕ} (M : Matrix (Fin n) (Fin n) ℝ) (v : Fin n → ℝ)
    (e : Fin n) (h : M.det ≠ 0) :
    Real.sign (∑ k, v k * M⁻¹ k e) * Real.sign M.det =
        Real.sign (M.updateRow e v).det ∧
      elog M.det + elog (∑ k, v k * M⁻¹ k e) = elog (M.updateRow e v).det := by
  rw [det_ratio_lemma M v e]
  constructor
  · rw [real_sign_div, mul_assoc, real_sign_mul_self h, mul_one]
  · exact elog_add_div h _

lemma expE_sub_coe (l : EReal) (hl : l ≠ ⊤) (r : ℝ) :
    expE (l - (r : EReal)) = expE l * Real.exp (-r) := by
  by_cases hb : l = ⊥
  · rw [hb, EReal.bot_sub, expE_bot, zero_mul]
  · have hcoe : ((l.toReal : ℝ) : EReal) = l := EReal.coe_toReal hl hb
    rw [← hcoe, ereal_coe_sub_coe, expE_coe, expE_coe, sub_eq_add_neg, Real.exp_add]

lemma sup'_ne_top {ι : Type} [Fintype ι] [Nonempty ι] (f : ι → EReal)
    (hf : ∀ i, f i ≠ ⊤) : Finset.univ.sup' Finset.univ_nonempty f ≠ ⊤ :=
  ((Finset.sup'_lt_iff Finset.univ_nonempty).mpr fun i _ =>
    lt_top_iff_ne_top.mpr (hf i)).ne

lemma all_bot_of_sup'_bot {ι : Type} [Fintype ι] [Nonempty ι] (f : ι → EReal)
    (h : Finset.univ.sup' Finset.univ_nonempty f = ⊥) : ∀ i, f i = ⊥ := fun i =>
  le_bot_iff.mp (h ▸ Finset.le_sup' f (Finset.mem_univ i))

/-- Shifting every log-magnitude by a finite reference multiplies the
signed exponential sum by `exp (-reference)`. -/
lemma shifted_sum_eq {nci : ℕ} [NeZero nci] (ci S : Fin nci → ℝ) (L : Fin nci → EReal)
    (hL : ∀ i, L i ≠ ⊤) (r : ℝ) :
    (∑ i, ci i * S i * expE (L i - (r : EReal))) =
      (∑ i, ci i * S i * expE (L i)) * Real.exp (-r) := by
  rw [Finset.sum_mul]
  refine Finset.sum_congr rfl fun i _ => ?_
  rw [expE_sub_coe (L i) (hL i) r]
  ring

/-- The `(sign, log)` pair produced by the log-sum-exp-with-sign combiner
represents exactly the unshifted signed exponential sum. -/
lemma combined_value_signlog {nci : ℕ} [NeZero nci] (ci S : Fin nci → ℝ)
    (L : Fin nci → EReal) (hL : ∀ i, L i ≠ ⊤) :
    combined_value
        (Real.sign (∑ i, ci i * S i *
          expE (L i - Finset.univ.sup' Finset.univ_nonempty L)))
        (elog (∑ i, ci i * S i *
          expE (L i - Finset.univ.sup' Finset.univ_nonempty L)) +
          Finset.univ.sup' Finset.univ_nonempty L) =
      ∑ i, ci i * S i * expE (L i) := by
  by_cases hrb : Finset.univ.sup' Finset.univ_nonempty L = ⊥
  · have hall := all_bot_of_sup'_bot L hrb
    have hz : (∑ i, ci i * S i *
        expE (L i - Finset.univ.sup' Finset.univ_nonempty L)) = 0 :=
      Finset.sum_eq_zero fun i _ => by rw [hall i, EReal.bot_sub, expE_bot, mul_zero]
    have hz2 : (∑ i, ci i * S i * expE (L i)) = 0 :=
      Finset.sum_eq_zero fun i _ => by rw [hall i, expE_bot, mul_zero]
    rw [hz, hz2, Real.sign_zero, combined_value, zero_mul]
  · have hrt : Finset.univ.sup' Finset.univ_nonempty L ≠ ⊤ := sup'_ne_top L hL
    obtain ⟨r, hr⟩ : ∃ r : ℝ, (r : EReal) = Finset.univ.sup' Finset.univ_nonempty L :=
      ⟨_, EReal.coe_toReal hrt hrb⟩
    rw [← hr, shifted_sum_eq ci S L hL r]
    by_cases hW : (∑ i, ci i * S i * expE (L i)) = 0
    · rw [hW, zero_mul, Real.sign_zero, elog_zero, combined_value, zero_mul]
    · have hv : (∑ i, ci i * S i * expE (L i)) * Real.exp (-r) ≠ 0 :=
        mul_ne_zero hW (Real.exp_ne_zero _)
      rw [combined_value, elog_of_ne_zero hv, ← EReal.coe_add, expE_coe, Real.exp_add,
        Real.exp_log (abs_pos.mpr hv), ← mul_assoc, real_sign_mul_abs, mul_assoc,
        ← Real.exp_add, neg_add_cancel, Real.exp_zero, mul_one]

/-- The quotient of two signed exponential sums shifted by the same joint
finite reference equals the quotient of the unshifted sums. -/
lemma testvalue_ratio_eq {nci : ℕ} [NeZero nci] (ci Snew Sold : Fin nci → ℝ)
    (Lnew Lold : Fin nci → EReal)
    (hnew : ∀ i, Lnew i ≠ ⊤) (hold : ∀ i, Lold i ≠ ⊤) :
    (∑ i, ci i * Snew i * expE (Lnew i -
        max (Finset.univ.sup' Finset.univ_nonempty Lnew)
          (Finset.univ.sup' Finset.univ_nonempty Lold))) /
      (∑ i, ci i * Sold i * expE (Lold i -
        max (Finset.univ.sup' Finset.univ_nonempty Lnew)
          (Finset.univ.sup' Finset.univ_nonempty Lold))) =
      (∑ i, ci i * Snew i * expE (Lnew i)) /
        (∑ i, ci i * Sold i * expE (Lold i)) := by
  by_cases hrb : max (Finset.univ.sup' Finset.univ_nonempty Lnew)
      (Finset.univ.sup' Finset.univ_nonempty Lold) = ⊥
  · have h1 : ∀ i, Lnew i = ⊥ :=
      all_bot_of_sup'_bot Lnew (le_bot_iff.mp (le_trans (le_max_left _ _) hrb.le))
    have h2 : ∀ i, Lold i = ⊥ :=
      all_bot_of_sup'_bot Lold (le_bot_iff.mp (le_trans (le_max_right _ _) hrb.le))
    have hz1 : (∑ i, ci i * Snew i * expE (Lnew i -
        max (Finset.univ.sup' Finset.univ_nonempty Lnew)
          (Finset.univ.sup' Finset.univ_nonempty Lold))) = 0 :=
      Finset.sum_eq_zero fun i _ => by rw [h1 i, EReal.bot_sub, expE_bot, mul_zero]
    have hz2 : (∑ i, ci i * Sold i * expE (Lold i -
        max (Finset.univ.sup' Finset.univ_nonempty Lnew)
          (Finset.univ.sup' Finset.univ_nonempty Lold))) = 0 :=
      Finset.sum_eq_zero fun i _ => by rw [h2 i, EReal.bot_sub, expE_bot, mul_zero]
    have hz3 : (∑ i, ci i * Snew i * expE (Lnew i)) = 0 :=
      Finset.sum_eq_zero fun i _ => by rw [h1 i, expE_bot, mul_zero]
    have hz4 : (∑ i, ci i * Sold i * expE (Lold i)) = 0 :=
      Finset.sum_eq_zero fun i _ => by rw [h2 i, expE_bot, mul_zero]
    rw [hz1, hz2, hz3, hz4]
  · have hrt : max (Finset.univ.sup' Finset.univ_nonempty Lnew)
        (Finset.univ.sup' Finset.univ_nonempty Lold) ≠ ⊤ :=
      (max_lt (lt_top_iff_ne_top.mpr (sup'_ne_top Lnew hnew))
        (lt_top_iff_ne_top.mpr (sup'_ne_top Lold hold))).ne
    obtain ⟨r, hr⟩ : ∃ r : ℝ, (r : EReal) =
        max (Finset.univ.sup' Finset.univ_nonempty Lnew)
          (Finset.univ.sup' Finset.univ_nonempty Lold) :=
      ⟨_, EReal.coe_toReal hrt hrb⟩
    rw [← hr, shifted_sum_eq ci Snew Lnew hnew r, shifted_sum_eq ci Sold Lold hold r,
      mul_div_mul_right _ _ (Real.exp_ne_zero _)]

lemma takeCols_updateRow {n norb k : ℕ} (X : Matrix (Fin n) (Fin norb) ℝ) (e : Fin n)
    (w : Fin norb → ℝ) (det : Fin k → Fin norb) :
    takeCols (X.updateRow e w) det = (takeCols X det).updateRow e fun j => w (det j) := by
  ext i j
  simp [takeCols, Matrix.updateRow_apply]

lemma natAdd_ne_castAdd {nup ndown : ℕ} (j : Fin ndown) (e : Fin nup) :
    (Fin.natAdd nup j : Fin (nup + ndown)) ≠ Fin.castAdd ndown e := by
  intro h
  have h2 := congrArg Fin.val h
  have he := e.isLt
  simp only [Fin.coe_natAdd, Fin.coe_castAdd] at h2
  omega

lemma castAdd_ne_natAdd {nup ndown : ℕ} (i : Fin nup) (e : Fin ndown) :
    (Fin.castAdd ndown i : Fin (nup + ndown)) ≠ Fin.natAdd nup e := by
  intro h
  have h2 := congrArg Fin.val h
  have hi := i.isLt
  simp only [Fin.coe_natAdd, Fin.coe_castAdd] at h2
  omega

lemma evaluate_logabsdet_up_ne_top {m ndu ndd nup ndown norb nbasis : ℕ}
    (gto1 : Pos → Fin nbasis → ℝ)
    (expansion : DeterminantExpansion (m + 1) ndu ndd nup ndown norb)
    (det_params : DeterminantParameters (m + 1) norb nbasis)
    (xyz : Fin (nup + ndown) → Pos) (d : Fin ndu) :
    (evaluate_expansion gto1 expansion det_params xyz).2.2.1.logabsdet d ≠ ⊤ :=
  elog_ne_top _

lemma evaluate_logabsdet_down_ne_top {m ndu ndd nup ndown norb nbasis : ℕ}
    (gto1 : Pos → Fin nbasis → ℝ)
    (expansion : DeterminantExpansion (m + 1) ndu ndd nup ndown norb)
    (det_params : DeterminantParameters (m + 1) norb nbasis)
    (xyz : Fin (nup + ndown) → Pos) (d : Fin ndd) :
    (evaluate_expansion gto1 expansion det_params xyz).2.2.2.logabsdet d ≠ ⊤ :=
  elog_ne_top _

/-- The combined `(sign, log)` pair reported by `evaluate_expansion`
represents the unshifted CI-weighted sum of signed exponentials of the
per-term log-magnitudes. -/
lemma combined_value_evaluate {m ndu ndd nup ndown norb nbasis : ℕ}
    (gto1 : Pos → Fin nbasis → ℝ)
    (expansion : DeterminantExpansion (m + 1) ndu ndd nup ndown norb)
    (det_params : DeterminantParameters (m + 1) norb nbasis)
    (xyz : Fin (nup + ndown) → Pos) :
    combined_value (evaluate_expansion gto1 expansion det_params xyz).1
        (evaluate_expansion gto1 expansion det_params xyz).2.1 =
      ∑ i, det_params.ci_coeff i *
        ((evaluate_expansion gto1 expansion det_params xyz).2.2.1.sign
            (expansion.mapping_up i) *
          (evaluate_expansion gto1 expansion det_params xyz).2.2.2.sign
            (expansion.mapping_down i)) *
        expE ((evaluate_expansion gto1 expansion det_params xyz).2.2.1.logabsdet
            (expansion.mapping_up i) +
          (evaluate_expansion gto1 expansion det_params xyz).2.2.2.logabsdet
            (expansion.mapping_down i)) := by
  have hL : ∀ i : Fin (m + 1),
      ((evaluate_expansion gto1 expansion det_params xyz).2.2.1.logabsdet
          (expansion.mapping_up i) +
        (evaluate_expansion gto1 expansion det_params xyz).2.2.2.logabsdet
          (expansion.mapping_down i)) ≠ ⊤ := fun i =>
    (EReal.add_lt_top (evaluate_logabsdet_up_ne_top gto1 expansion det_params xyz _)
      (evaluate_logabsdet_down_ne_top gto1 expansion det_params xyz _)).ne
  exact combined_value_signlog det_params.ci_coeff
    (fun i => (evaluate_expansion gto1 expansion det_params xyz).2.2.1.sign
        (expansion.mapping_up i) *
      (evaluate_expansion gto1 expansion det_params xyz).2.2.2.sign
        (expansion.mapping_down i))
    (fun i => (evaluate_expansion gto1 expansion det_params xyz).2.2.1.logabsdet
        (expansion.mapping_up i) +
      (evaluate_expansion gto1 expansion det_params xyz).2.2.2.logabsdet
        (expansion.mapping_down i)) hL

/-- Up-spin single-electron ratio against full recompute: with the cached
state produced by a full evaluation at `xyz` and all up occupied submatrices
nonsingular there, the `testvalue_up` ratio for moving up electron `e` to
`newpos` equals the quotient of the combined values of the two full
recomputes (at the updated and at the original coordinates). -/
lemma testvalue_up_ratio_eq_recompute
    {m ndu ndd nup ndown norb nbasis : ℕ}
    (gto1 : Pos → Fin nbasis → ℝ)
    (expansion : DeterminantExpansion (m + 1) ndu ndd nup ndown norb)
    (det_params : DeterminantParameters (m + 1) norb nbasis)
    (xyz : Fin (nup + ndown) → Pos) (e : Fin nup) (newpos : Pos)
    (hup : ∀ d, (takeCols (evaluate_expansion gto1 expansion det_params xyz).2.2.1.mo_values
        (expansion.determinants_up d)).det ≠ 0) :
    (testvalue_up gto1 expansion det_params
        (evaluate_expansion gto1 expansion det_params xyz).2.2.1
        (evaluate_expansion gto1 expansion det_params xyz).2.2.2 e newpos).1 =
      combined_value
          (evaluate_expansion gto1 expansion det_params
            (Function.update xyz (Fin.castAdd ndown e) newpos)).1
          (evaluate_expansion gto1 expansion det_params
            (Function.update xyz (Fin.castAdd ndown e) newpos)).2.1 /
        combined_value (evaluate_expansion gto1 expansion det_params xyz).1
          (evaluate_expansion gto1 expansion det_params xyz).2.1 := by
  have hX' : (evaluate_expansion gto1 expansion det_params
        (Function.update xyz (Fin.castAdd ndown e) newpos)).2.2.1.mo_values =
      ((evaluate_expansion gto1 expansion det_params xyz).2.2.1.mo_values).updateRow e
        (fun o => ∑ b, gto1 newpos b * det_params.mo_coeff_alpha b o) := by
    show ((Matrix.of fun i b =>
          gto1 (Function.update xyz (Fin.castAdd ndown e) newpos (Fin.castAdd ndown i)) b) *
        det_params.mo_coeff_alpha) =
      ((Matrix.of fun i b => gto1 (xyz (Fin.castAdd ndown i)) b) *
          det_params.mo_coeff_alpha).updateRow e
        (fun o => ∑ b, gto1 newpos b * det_params.mo_coeff_alpha b o)
    ext i o
    simp only [Matrix.updateRow_apply, Matrix.mul_apply, Matrix.of_apply]
    by_cases hi : i = e
    · rw [if_pos hi, hi]
      simp only [Function.update_same]
    · have hne : (Fin.castAdd ndown i : Fin (nup + ndown)) ≠ Fin.castAdd ndown e := by
        intro hcontra
        apply hi
        apply Fin.ext
        have h3 := congrArg Fin.val hcontra
        simpa [Fin.coe_castAdd] using h3
      simp only [hi, if_false, Function.update_noteq hne]
  have hdown : (evaluate_expansion gto1 expansion det_params
        (Function.update xyz (Fin.castAdd ndown e) newpos)).2.2.2 =
      (evaluate_expansion gto1 expansion det_params xyz).2.2.2 := by
    show compute_determinants det_params.mo_coeff_beta
        (fun xs => Matrix.of fun j b => gto1 (xs j) b) expansion.determinants_down
        (fun j => Function.update xyz (Fin.castAdd ndown e) newpos (Fin.natAdd nup j)) =
      compute_determinants det_params.mo_coeff_beta
        (fun xs => Matrix.of fun j b => gto1 (xs j) b) expansion.determinants_down
        (fun j => xyz (Fin.natAdd nup j))
    congr 1
    funext j
    exact Function.update_noteq (natAdd_ne_castAdd j e) _ _
  have hsgn : ∀ d, Real.sign (determinant_lemma
        (fun o => ∑ b, gto1 newpos b * det_params.mo_coeff_alpha b o)
        ((evaluate_expansion gto1 expansion det_params xyz).2.2.1.inverse d)
        (expansion.determinants_up d) e) *
        (evaluate_expansion gto1 expansion det_params xyz).2.2.1.sign d =
      (evaluate_expansion gto1 expansion det_params
        (Function.update xyz (Fin.castAdd ndown e) newpos)).2.2.1.sign d := by
    intro d
    have h2 : takeCols (evaluate_expansion gto1 expansion det_params
          (Function.update xyz (Fin.castAdd ndown e) newpos)).2.2.1.mo_values
          (expansion.determinants_up d) =
        (takeCols (evaluate_expansion gto1 expansion det_params xyz).2.2.1.mo_values
            (expansion.determinants_up d)).updateRow e
          (fun k => ∑ b, gto1 newpos b *
            det_params.mo_coeff_alpha b (expansion.determinants_up d k)) := by
      rw [hX']
      exact takeCols_updateRow _ _ _ _
    have h := (slogdet_after_row_update
        (takeCols (evaluate_expansion gto1 expansion det_params xyz).2.2.1.mo_values
          (expansion.determinants_up d))
        (fun k => ∑ b, gto1 newpos b *
          det_params.mo_coeff_alpha b (expansion.determinants_up d k))
        e (hup d)).1
    rw [← h2] at h
    exact h
  have hlog : ∀ d, (evaluate_expansion gto1 expansion det_params xyz).2.2.1.logabsdet d +
        elog (determinant_lemma
          (fun o => ∑ b, gto1 newpos b * det_params.mo_coeff_alpha b o)
          ((evaluate_expansion gto1 expansion det_params xyz).2.2.1.inverse d)
          (expansion.determinants_up d) e) =
      (evaluate_expansion gto1 expansion det_params
        (Function.update xyz (Fin.castAdd ndown e) newpos)).2.2.1.logabsdet d := by
    intro d
    have h2 : takeCols (evaluate_expansion gto1 expansion det_params
          (Function.update xyz (Fin.castAdd ndown e) newpos)).2.2.1.mo_values
          (expansion.determinants_up d) =
        (takeCols (evaluate_expansion gto1 expansion det_params xyz).2.2.1.mo_values
            (expansion.determinants_up d)).updateRow e
          (fun k => ∑ b, gto1 newpos b *
            det_params.mo_coeff_alpha b (expansion.determinants_up d k)) := by
      rw [hX']
      exact takeCols_updateRow _ _ _ _
    have h := (slogdet_after_row_update
        (takeCols (evaluate_expansion gto1 expansion det_params xyz).2.2.1.mo_values
          (expansion.determinants_up d))
        (fun k => ∑ b, gto1 newpos b *
          det_params.mo_coeff_alpha b (expansion.determinants_up d k))
        e (hup d)).2
    rw [← h2] at h
    exact h
  simp only [testvalue_up, hsgn, hlog]
  rw [combined_value_evaluate gto1 expansion det_params
      (Function.update xyz (Fin.castAdd ndown e) newpos),
    combined_value_evaluate gto1 expansion det_params xyz, hdown]
  exact testvalue_ratio_eq det_params.ci_coeff
    (fun i => (evaluate_expansion gto1 expansion det_params
        (Function.update xyz (Fin.castAdd ndown e) newpos)).2.2.1.sign
          (expansion.mapping_up i) *
      (evaluate_expansion gto1 expansion det_params xyz).2.2.2.sign
        (expansion.mapping_down i))
    (fun i => (evaluate_expansion gto1 expansion det_params xyz).2.2.1.sign
        (expansion.mapping_up i) *
      (evaluate_expansion gto1 expansion det_params xyz).2.2.2.sign
        (expansion.mapping_down i))
    (fun i => (evaluate_expansion gto1 expansion det_params
        (Function.update xyz (Fin.castAdd ndown e) newpos)).2.2.1.logabsdet
          (expansion.mapping_up i) +
      (evaluate_expansion gto1 expansion det_params xyz).2.2.2.logabsdet
        (expansion.mapping_down i))
    (fun i => (evaluate_expansion gto1 expansion det_params xyz).2.2.1.logabsdet
        (expansion.mapping_up i) +
      (evaluate_expansion gto1 expansion det_params xyz).2.2.2.logabsdet
        (expansion.mapping_down i))
    (fun i => (EReal.add_lt_top
      (evaluate_logabsdet_up_ne_top gto1 expansion det_params _ _)
      (evaluate_logabsdet_down_ne_top gto1 expansion det_params xyz _)).ne)
    (fun i => (EReal.add_lt_top
      (evaluate_logabsdet_up_ne_top gto1 expansion det_params xyz _)
      (evaluate_logabsdet_down_ne_top gto1 expansion det_params xyz _)).ne)

/-- Down-spin single-electron ratio against full recompute, the mirror of
`testvalue_up_ratio_eq_recompute`. -/
lemma testvalue_down_ratio_eq_recompute
    {m ndu ndd nup ndown norb nbasis : ℕ}
    (gto1 : Pos → Fin nbasis → ℝ)
    (expansion : DeterminantExpansion (m + 1) ndu ndd nup ndown norb)
    (det_params : DeterminantParameters (m + 1) norb nbasis)
    (xyz : Fin (nup + ndown) → Pos) (e : Fin ndown) (newpos : Pos)
    (hdn : ∀ d, (takeCols (evaluate_expansion gto1 expansion det_params xyz).2.2.2.mo_values
        (expansion.determinants_down d)).det ≠ 0) :
    (testvalue_down gto1 expansion det_params
        (evaluate_expansion gto1 expansion det_params xyz).2.2.1
        (evaluate_expansion gto1 expansion det_params xyz).2.2.2 e newpos).1 =
      combined_value
          (evaluate_expansion gto1 expansion det_params
            (Function.update xyz (Fin.natAdd nup e) newpos)).1
          (evaluate_expansion gto1 expansion det_params
            (Function.update xyz (Fin.natAdd nup e) newpos)).2.1 /
        combined_value (evaluate_expansion gto1 expansion det_params xyz).1
          (evaluate_expansion gto1 expansion det_params xyz).2.1 := by
  have hY' : (evaluate_expansion gto1 expansion det_params
        (Function.update xyz (Fin.natAdd nup e) newpos)).2.2.2.mo_values =
      ((evaluate_expansion gto1 expansion det_params xyz).2.2.2.mo_values).updateRow e
        (fun o => ∑ b, gto1 newpos b * det_params.mo_coeff_beta b o) := by
    show ((Matrix.of fun j b =>
          gto1 (Function.update xyz (Fin.natAdd nup e) newpos (Fin.natAdd nup j)) b) *
        det_params.mo_coeff_beta) =
      ((Matrix.of fun j b => gto1 (xyz (Fin.natAdd nup j)) b) *
          det_params.mo_coeff_beta).updateRow e
        (fun o => ∑ b, gto1 newpos b * det_params.mo_coeff_beta b o)
    ext j o
    simp only [Matrix.updateRow_apply, Matrix.mul_apply, Matrix.of_apply]
    by_cases hj : j = e
    · rw [if_pos hj, hj]
      simp only [Function.update_same]
    · have hne : (Fin.natAdd nup j : Fin (nup + ndown)) ≠ Fin.natAdd nup e := by
        intro hcontra
        apply hj
        apply Fin.ext
        have h3 := congrArg Fin.val hcontra
        simp only [Fin.coe_natAdd] at h3
        omega
      simp only [hj, if_false, Function.update_noteq hne]
  have hupSame : (evaluate_expansion gto1 expansion det_params
        (Function.update xyz (Fin.natAdd nup e) newpos)).2.2.1 =
      (evaluate_expansion gto1 expansion det_params xyz).2.2.1 := by
    show compute_determinants det_params.mo_coeff_alpha
        (fun xs => Matrix.of fun i b => gto1 (xs i) b) expansion.determinants_up
        (fun i => Function.update xyz (Fin.natAdd nup e) newpos (Fin.castAdd ndown i)) =
      compute_determinants det_params.mo_coeff_alpha
        (fun xs => Matrix.of fun i b => gto1 (xs i) b) expansion.determinants_up
        (fun i => xyz (Fin.castAdd ndown i))
    congr 1
    funext i
    exact Function.update_noteq (castAdd_ne_natAdd i e) _ _
  have hsgn : ∀ d, Real.sign (determinant_lemma
        (fun o => ∑ b, gto1 newpos b * det_params.mo_coeff_beta b o)
        ((evaluate_expansion gto1 expansion det_params xyz).2.2.2.inverse d)
        (expansion.determinants_down d) e) *
        (evaluate_expansion gto1 expansion det_params xyz).2.2.2.sign d =
      (evaluate_expansion gto1 expansion det_params
        (Function.update xyz (Fin.natAdd nup e) newpos)).2.2.2.sign d := by
    intro d
    have h2 : takeCols (evaluate_expansion gto1 expansion det_params
          (Function.update xyz (Fin.natAdd nup e) newpos)).2.2.2.mo_values
          (expansion.determinants_down d) =
        (takeCols (evaluate_expansion gto1 expansion det_params xyz).2.2.2.mo_values
            (expansion.determinants_down d)).updateRow e
          (fun k => ∑ b, gto1 newpos b *
            det_params.mo_coeff_beta b (expansion.determinants_down d k)) := by
      rw [hY']
      exact takeCols_updateRow _ _ _ _
    have h := (slogdet_after_row_update
        (takeCols (evaluate_expansion gto1 expansion det_params xyz).2.2.2.mo_values
          (expansion.determinants_down d))
        (fun k => ∑ b, gto1 newpos b *
          det_params.mo_coeff_beta b (expansion.determinants_down d k))
        e (hdn d)).1
    rw [← h2] at h
    exact h
  have hlog : ∀ d, (evaluate_expansion gto1 expansion det_params xyz).2.2.2.logabsdet d +
        elog (determinant_lemma
          (fun o => ∑ b, gto1 newpos b * det_params.mo_coeff_beta b o)
          ((evaluate_expansion gto1 expansion det_params xyz).2.2.2.inverse d)
          (expansion.determinants_down d) e) =
      (evaluate_expansion gto1 expansion det_params
        (Function.update xyz (Fin.natAdd nup e) newpos)).2.2.2.logabsdet d := by
    intro d
    have h2 : takeCols (evaluate_expansion gto1 expansion det_params
          (Function.update xyz (Fin.natAdd nup e) newpos)).2.2.2.mo_values
          (expansion.determinants_down d) =
        (takeCols (evaluate_expansion gto1 expansion det_params xyz).2.2.2.mo_values
            (expansion.determinants_down d)).updateRow e
          (fun k => ∑ b, gto1 newpos b *
            det_params.mo_coeff_beta b (expansion.determinants_down d k)) := by
      rw [hY']
      exact takeCols_updateRow _ _ _ _
    have h := (slogdet_after_row_update
        (takeCols (evaluate_expansion gto1 expansion det_params xyz).2.2.2.mo_values
          (expansion.determinants_down d))
        (fun k => ∑ b, gto1 newpos b *
          det_params.mo_coeff_beta b (expansion.determinants_down d k))
        e (hdn d)).2
    rw [← h2] at h
    exact h
  simp only [testvalue_down, hsgn, hlog]
  rw [combined_value_evaluate gto1 expansion det_params
      (Function.update xyz (Fin.natAdd nup e) newpos),
    combined_value_evaluate gto1 expansion det_params xyz, hupSame]
  exact testvalue_ratio_eq det_params.ci_coeff
    (fun i => (evaluate_expansion gto1 expansion det_params xyz).2.2.1.sign
        (expansion.mapping_up i) *
      (evaluate_expansion gto1 expansion det_params
        (Function.update xyz (Fin.natAdd nup e) newpos)).2.2.2.sign
          (expansion.mapping_down i))
    (fun i => (evaluate_expansion gto1 expansion det_params xyz).2.2.1.sign
        (expansion.mapping_up i) *
      (evaluate_expansion gto1 expansion det_params xyz).2.2.2.sign
        (expansion.mapping_down i))
    (fun i => (evaluate_expansion gto1 expansion det_params xyz).2.2.1.logabsdet
        (expansion.mapping_up i) +
      (evaluate_expansion gto1 expansion det_params
        (Function.update xyz (Fin.natAdd nup e) newpos)).2.2.2.logabsdet
          (expansion.mapping_down i))
    (fun i => (evaluate_expansion gto1 expansion det_params xyz).2.2.1.logabsdet
        (expansion.mapping_up i) +
      (evaluate_expansion gto1 expansion det_params xyz).2.2.2.logabsdet
        (expansion.mapping_down i))
    (fun i => (EReal.add_lt_top
      (evaluate_logabsdet_up_ne_top gto1 expansion det_params xyz _)
      (evaluate_logabsdet_down_ne_top gto1 expansion det_params _ _)).ne)
    (fun i => (EReal.add_lt_top
      (evaluate_logabsdet_up_ne_top gto1 expansion det_params xyz _)
      (evaluate_logabsdet_down_ne_top gto1 expansion det_params xyz _)).ne)

/-- C2: for every configuration and every electron of either spin, the
single-electron update ratio (`testvalue_up` / `testvalue_down`), computed
from the cached state of a full evaluation whose occupied submatrices for
the moved spin are nonsingular, equals in exact arithmetic the combined
multi-determinant value at the updated coordinates divided by the combined
value at the original coordinates — the quotient of the two full-recompute
(`evaluate_expansion`) values represented by their `(sign, log)` pairs. -/
theorem testvalue_ratio_matches_full_recompute
    {m ndu ndd nup ndown norb nbasis : ℕ}
    (gto1 : Pos → Fin nbasis → ℝ)
    (expansion : DeterminantExpansion (m + 1) ndu ndd nup ndown norb)
    (det_params : DeterminantParameters (m + 1) norb nbasis)
    (xyz : Fin (nup + ndown) → Pos)
    (hup : ∀ d, (takeCols (evaluate_expansion gto1 expansion det_params xyz).2.2.1.mo_values
        (expansion.determinants_up d)).det ≠ 0)
    (hdn : ∀ d, (takeCols (evaluate_expansion gto1 expansion det_params xyz).2.2.2.mo_values
        (expansion.determinants_down d)).det ≠ 0) :
    (∀ (e : Fin nup) (newpos : Pos),
      (testvalue_up gto1 expansion det_params
          (evaluate_expansion gto1 expansion det_params xyz).2.2.1
          (evaluate_expansion gto1 expansion det_params xyz).2.2.2 e newpos).1 =
        combined_value
            (evaluate_expansion gto1 expansion det_params
              (Function.update xyz (Fin.castAdd ndown e) newpos)).1
            (evaluate_expansion gto1 expansion det_params
              (Function.update xyz (Fin.castAdd ndown e) newpos)).2.1 /
          combined_value (evaluate_expansion gto1 expansion det_params xyz).1
            (evaluate_expansion gto1 expansion det_params xyz).2.1) ∧
      (∀ (e : Fin ndown) (newpos : Pos),
        (testvalue_down gto1 expansion det_params
            (evaluate_expansion gto1 expansion det_params xyz).2.2.1
            (evaluate_expansion gto1 expansion det_params xyz).2.2.2 e newpos).1 =
          combined_value
              (evaluate_expansion gto1 expansion det_params
                (Function.update xyz (Fin.natAdd nup e) newpos)).1
              (evaluate_expansion gto1 expansion det_params
                (Function.update xyz (Fin.natAdd nup e) newpos)).2.1 /
            combined_value (evaluate_expansion gto1 expansion det_params xyz).1
              (evaluate_expansion gto1 expansion det_params xyz).2.1) :=
  ⟨fun e newpos => testvalue_up_ratio_eq_recompute gto1 expansion det_params xyz e newpos hup,
    fun e newpos => testvalue_down_ratio_eq_recompute gto1 expansion det_params xyz e newpos hdn⟩

/-- C2 witness: at the one-basis one-orbital fixture every occupied
submatrix has determinant `1`, and the ratio-versus-recompute identity holds
for both spins. -/
theorem testvalue_ratio_matches_full_recompute_witness :
    (∀ d : Fin 1, (takeCols
        (evaluate_expansion gtoOne expnOne parOne xyzZero).2.2.1.mo_values
        (expnOne.determinants_up d)).det ≠ 0) ∧
      (∀ d : Fin 1, (takeCols
          (evaluate_expansion gtoOne expnOne parOne xyzZero).2.2.2.mo_values
          (expnOne.determinants_down d)).det ≠ 0) ∧
      ((∀ (e : Fin 1) (newpos : Pos),
        (testvalue_up gtoOne expnOne parOne
            (evaluate_expansion gtoOne expnOne parOne xyzZero).2.2.1
            (evaluate_expansion gtoOne expnOne parOne xyzZero).2.2.2 e newpos).1 =
          combined_value
              (evaluate_expansion gtoOne expnOne parOne
                (Function.update xyzZero (Fin.castAdd 1 e) newpos)).1
              (evaluate_expansion gtoOne expnOne parOne
                (Function.update xyzZero (Fin.castAdd 1 e) newpos)).2.1 /
            combined_value (evaluate_expansion gtoOne expnOne parOne xyzZero).1
              (evaluate_expansion gtoOne expnOne parOne xyzZero).2.1) ∧
      (∀ (e : Fin 1) (newpos : Pos),
        (testvalue_down gtoOne expnOne parOne
            (evaluate_expansion gtoOne expnOne parOne xyzZero).2.2.1
            (evaluate_expansion gtoOne expnOne parOne xyzZero).2.2.2 e newpos).1 =
          combined_value
              (evaluate_expansion gtoOne expnOne parOne
                (Function.update xyzZero (Fin.natAdd 1 e) newpos)).1
              (evaluate_expansion gtoOne expnOne parOne
                (Function.update xyzZero (Fin.natAdd 1 e) newpos)).2.1 /
            combined_value (evaluate_expansion gtoOne expnOne parOne xyzZero).1
              (evaluate_expansion gtoOne expnOne parOne xyzZero).2.1)) := by
  have hup : ∀ d : Fin 1, (takeCols
      (evaluate_expansion gtoOne expnOne parOne xyzZero).2.2.1.mo_values
      (expnOne.determinants_up d)).det ≠ 0 := by
    intro d
    simp [evaluate_expansion, compute_determinants, takeCols, gtoOne, expnOne, parOne,
      xyzZero, Matrix.mul_apply, Matrix.det_fin_one]
  have hdn : ∀ d : Fin 1, (takeCols
      (evaluate_expansion gtoOne expnOne parOne xyzZero).2.2.2.mo_values
      (expnOne.determinants_down d)).det ≠ 0 := by
    intro d
    simp [evaluate_expansion, compute_determinants, takeCols, gtoOne, expnOne, parOne,
      xyzZero, Matrix.mul_apply, Matrix.det_fin_one]
  exact ⟨hup, hdn, testvalue_ratio_matches_full_recompute gtoOne expnOne parOne xyzZero hup hdn⟩

end
